import Mathlib

/- Verification of the sentioxyz/golang-lru repository: a shallow embedding of
   the simplelru LRU engine (src/unnamed/part_000) and of the thread-safe
   Cache wrapper (src/lru.go), with proofs of the specified properties. -/

set_option autoImplicit false
set_option linter.unusedSectionVars false
set_option linter.unnecessarySimpa false
set_option linter.unusedVariables false

namespace GolangLRU

/-- Modulus of Go uint64 arithmetic (2 ^ 64): `weight`, `weightTotal` and
`weightLimit` are `uint64` in the source. -/
def U64 : Nat := 18446744073709551616

/-- Go uint64 addition with wraparound. -/
def u64add (a b : Nat) : Nat := (a + b) % U64

/-- Go uint64 subtraction with wraparound. -/
def u64sub (a b : Nat) : Nat := (a % U64 + U64 - b % U64) % U64

/-- One cache entry, as the engine sees it: the Go list `entry` holds key,
value and a uint64 weight (its recency links are represented here by the
entry's position in the engine's list). -/
structure Entry (K V : Type) where
  key : K
  value : V
  weight : Nat
deriving DecidableEq, Repr

variable {K V : Type} [DecidableEq K]

/-- Modelled from the spec: the Ordered Store (the internal doubly linked
list file is not under src/; spec section 4.1 gives its contract).  We keep
the entries in a Lean list in oldest-first order: the head is `back()` (the
least recently used entry) and the last element is the front (the most
recently used).  The Go key-to-entry map `items` is represented by key
search in the same list; the spec invariant "exactly one entry per live
key" makes the two views coincide. -/
def listBack (l : List (Entry K V)) : Option (Entry K V) := l.head?

/-- Modelled from the spec: Ordered Store `pushFront` inserts a new entry at
the most-recently-used end, which in oldest-first order is the tail. -/
def listPushFront (l : List (Entry K V)) (e : Entry K V) : List (Entry K V) :=
  l ++ [e]

/-- Modelled from the spec: Ordered Store `remove(entry)` together with the
Go map delete `delete(c.items, e.key)`: detach the first (in reachable
states, the unique) entry carrying the given key. -/
def listRemoveKey : List (Entry K V) → K → List (Entry K V)
  | [], _ => []
  | e :: rest, k => if e.key = k then rest else e :: listRemoveKey rest k

/-- Modelled from the spec: Ordered Store `moveToFront(entry)` detaches the
entry with the given key and reinserts it (with its updated fields) at the
most-recently-used end. -/
def listMoveToFront (l : List (Entry K V)) (k : K) (e : Entry K V) :
    List (Entry K V) :=
  listRemoveKey l k ++ [e]

/-- Sum of the stored weights of a list of entries (mathematical sum; the
engine's uint64 `weightTotal` tracks it modulo `U64`). -/
def sumWeights (l : List (Entry K V)) : Nat := (l.map Entry.weight).sum

/-- Go `LRU` struct (src/unnamed/part_000 lines 14-23).  The `items` map is
merged into `evictList` (see `listRemoveKey`); the optional `onEvict`
callback is modelled by returning the list of fired notifications from each
mutating operation. -/
structure LRU (K V : Type) where
  size : Int
  weightLimit : Nat
  weightCalculator : Option (V → Nat)
  weightTotal : Nat
  evictList : List (Entry K V)

/-- Go `NewLRUWithWeightLimit` (lines 30-50): fails exactly when the
requested size is not positive, otherwise returns the empty cache. -/
def NewLRUWithWeightLimit (size : Int) (weightLimit : Nat)
    (weightCalculator : Option (V → Nat)) : Except String (LRU K V) :=
  if size ≤ 0 then .error "must provide a positive size"
  else .ok { size := size, weightLimit := weightLimit,
             weightCalculator := weightCalculator,
             weightTotal := 0, evictList := [] }

/-- Go `NewLRU` (lines 26-28): `NewLRUWithWeightLimit(size, 0, nil, onEvict)`. -/
def NewLRU (size : Int) : Except String (LRU K V) :=
  NewLRUWithWeightLimit size 0 none

/-- Go map lookup `c.items[key]`. -/
def LRU.findEntry (c : LRU K V) (k : K) : Option (Entry K V) :=
  c.evictList.find? (fun e => decide (e.key = k))

/-- Go `LRU.removeElement` (lines 186-194): unlink the entry from the list,
delete it from the index, subtract its weight from the running uint64 total
and fire the eviction notification (returned as the second component). -/
def LRU.removeElement (c : LRU K V) (e : Entry K V) : LRU K V × (K × V) :=
  ({ c with evictList := listRemoveKey c.evictList e.key,
            weightTotal := u64sub c.weightTotal e.weight },
   (e.key, e.value))

/-- Fuel-indexed unfolding of the Go `checkEvict` loop (lines 176-184):
while `evictList.length() > size || weightTotal > weightLimit`, remove the
back entry.  `none` models the runtime panic that Go would hit by
dereferencing a nil `back()` on an empty list (the source comments
`// never be nil` at that site).  Each iteration with a nonempty list
shortens it by one, so fuel `length + 1` always suffices to reach either
the loop exit or the nil dereference; `checkEvictLoop_stable` below proves
the result is fuel-independent from that point on. -/
def LRU.checkEvictLoop : Nat → LRU K V → Option (LRU K V × Nat × List (K × V))
  | 0, _ => none
  | fuel + 1, c =>
    if (c.evictList.length : Int) > c.size ∨ c.weightTotal > c.weightLimit then
      match listBack c.evictList with
      | none => none
      | some e =>
        match LRU.checkEvictLoop fuel (c.removeElement e).1 with
        | none => none
        | some (c', n, ps) => some (c', n + 1, (e.key, e.value) :: ps)
    else some (c, 0, [])

/-- Go `LRU.checkEvict` (lines 176-184): the eviction loop, returning the
final state, the number of evicted entries and the eviction notifications
in the order they were fired. -/
def LRU.checkEvict (c : LRU K V) : Option (LRU K V × Nat × List (K × V)) :=
  LRU.checkEvictLoop (c.evictList.length + 1) c

/-- Go `LRU.Add` (lines 63-87).  On an existing key: move the entry to the
front, replace its value, and when a weight calculator is configured
subtract the old weight and add the recomputed one (uint64 arithmetic).  On
a new key: push a fresh entry to the front and add its weight.  Both paths
finish with `checkEvict`; the boolean result is `checkEvict() > 0`. -/
def LRU.Add (c : LRU K V) (k : K) (v : V) :
    Option (LRU K V × Bool × List (K × V)) :=
  match c.findEntry k with
  | some ent =>
    let w := match c.weightCalculator with
      | some wc => wc v % U64
      | none => ent.weight
    let wt := match c.weightCalculator with
      | some _ => u64add (u64sub c.weightTotal ent.weight) w
      | none => c.weightTotal
    let c1 : LRU K V :=
      { c with evictList := listMoveToFront c.evictList k ⟨k, v, w⟩,
               weightTotal := wt }
    (c1.checkEvict).map fun r => (r.1, decide (0 < r.2.1), r.2.2)
  | none =>
    let w := match c.weightCalculator with
      | some wc => wc v % U64
      | none => 0
    let wt := match c.weightCalculator with
      | some _ => u64add c.weightTotal w
      | none => c.weightTotal
    let c1 : LRU K V :=
      { c with evictList := listPushFront c.evictList ⟨k, v, w⟩,
               weightTotal := wt }
    (c1.checkEvict).map fun r => (r.1, decide (0 < r.2.1), r.2.2)

/-- Go `LRU.Get` (lines 89-96): on a hit move the entry to the front and
return its value; on a miss return not-found.  The pair is (value if found,
new state). -/
def LRU.Get (c : LRU K V) (k : K) : Option V × LRU K V :=
  match c.findEntry k with
  | some ent => (some ent.value,
      { c with evictList := listMoveToFront c.evictList k ent })
  | none => (none, c)

/-- Go `LRU.Contains` (lines 98-103): membership with no recency effect. -/
def LRU.Contains (c : LRU K V) (k : K) : Bool :=
  (c.findEntry k).isSome

/-- Go `LRU.Peek` (lines 105-113): lookup with no recency effect. -/
def LRU.Peek (c : LRU K V) (k : K) : Option V :=
  (c.findEntry k).map Entry.value

/-- Go `LRU.Remove` (lines 115-123): delete the key if present; the Bool is
whether it was present, the list holds the fired notification. -/
def LRU.Remove (c : LRU K V) (k : K) : LRU K V × Bool × List (K × V) :=
  match c.findEntry k with
  | some ent =>
    let r := c.removeElement ent
    (r.1, true, [r.2])
  | none => (c, false, [])

/-- Go `LRU.RemoveOldest` (lines 125-132): remove and return the back
entry, or not-found when empty. -/
def LRU.RemoveOldest (c : LRU K V) : LRU K V × Option (K × V) × List (K × V) :=
  match listBack c.evictList with
  | some ent =>
    let r := c.removeElement ent
    (r.1, some (ent.key, ent.value), [r.2])
  | none => (c, none, [])

/-- Go `LRU.GetOldest` (lines 134-140): peek the back entry. -/
def LRU.GetOldest (c : LRU K V) : Option (K × V) :=
  (listBack c.evictList).map fun e => (e.key, e.value)

/-- Go `LRU.Keys` (lines 142-151): keys from oldest to newest, which in the
oldest-first representation is the stored order. -/
def LRU.Keys (c : LRU K V) : List K :=
  c.evictList.map Entry.key

/-- Go `LRU.Len` (lines 153-156). -/
def LRU.Len (c : LRU K V) : Nat :=
  c.evictList.length

/-- Go `LRU.WeightTotal` (lines 158-161): returns the stored uint64 field. -/
def LRU.WeightTotal (c : LRU K V) : Nat :=
  c.weightTotal

/-- Go `LRU.Purge` (lines 52-61): fire a notification for every entry (Go
iterates the map in arbitrary order; the model uses the list order, one
admissible order), delete every item, and re-init the list.  Note that the
source never touches `c.weightTotal` here. -/
def LRU.Purge (c : LRU K V) : LRU K V × List (K × V) :=
  ({ c with evictList := [] },
   c.evictList.map fun e => (e.key, e.value))

/-- Go `LRU.Resize` (lines 163-167): set the new size (no validation) and
run the eviction loop. -/
def LRU.Resize (c : LRU K V) (size : Int) :
    Option (LRU K V × Nat × List (K × V)) :=
  LRU.checkEvict { c with size := size }

/-- Go `LRU.ResetWeightLimit` (lines 169-173): set the new weight limit and
run the eviction loop. -/
def LRU.ResetWeightLimit (c : LRU K V) (weightLimit : Nat) :
    Option (LRU K V × Nat × List (K × V)) :=
  LRU.checkEvict { c with weightLimit := weightLimit }

/-- Go `Cache` struct (src/lru.go lines 14-21): the thread-safe wrapper.
The parallel `evictedKeys`/`evictedVals` buffers are modelled as one zipped
list; `hasCB` models `onEvictedCB != nil`.  The lock serializes every
operation, so the sequential model runs operations one at a time. -/
structure Cache (K V : Type) where
  lru : LRU K V
  evicted : List (K × V)
  hasCB : Bool

/-- Go `NewWithWeightLimitAndEvict` (src/lru.go lines 35-51): build the
wrapper around a fresh engine; buffers start empty; the buffering hook is
installed exactly when a user callback is configured. -/
def NewWithWeightLimitAndEvict (size : Int) (weightLimit : Nat)
    (weightCalculator : Option (V → Nat)) (hasCB : Bool) :
    Except String (Cache K V) :=
  (NewLRUWithWeightLimit size weightLimit weightCalculator).map
    fun l => { lru := l, evicted := [], hasCB := hasCB }

/-- Go `Cache.onEvicted` (src/lru.go lines 58-63): evictions produced
inside the critical section are appended to the wrapper buffers.  The hook
is installed only when a user callback is configured, so without one the
notifications are dropped. -/
def Cache.bufferNotifs (c : Cache K V) (ps : List (K × V)) : Cache K V :=
  if c.hasCB then { c with evicted := c.evicted ++ ps } else c

/-- The `purge = true` branch of Go `Cache.collectEvicted` (src/lru.go
lines 70-72): hand the buffer arrays to the caller and install fresh empty
ones (`initEvictBuffers`). -/
def collectOwn (buf : List (K × V)) : List (K × V) × List (K × V) :=
  (buf, [])

/-- The `purge = false` branch of Go `Cache.collectEvicted` (src/lru.go
lines 73-78): allocate arrays of length `count`, copy the buffered pairs
into them element by element, and truncate the buffers to length zero
(keeping their allocated capacity, which the model does not observe). -/
def collectCopy (buf : List (K × V)) : List (K × V) × List (K × V) :=
  (List.ofFn (fun i : Fin buf.length => buf.get i), buf.take 0)

/-- Go `Cache.collectEvicted` (src/lru.go lines 65-80): return the buffered
pairs and reset the buffers, short-circuiting when the buffer is empty;
`purge` selects the ownership-taking form over the copy-then-truncate
form. -/
def Cache.collectEvicted (c : Cache K V) (purge : Bool) :
    List (K × V) × Cache K V :=
  if c.evicted.length = 0 then ([], c)
  else
    let r := if purge then collectOwn c.evicted else collectCopy c.evicted
    (r.1, { c with evicted := r.2 })

/-- The drain pattern repeated in every mutating wrapper method: when a
user callback is configured and the trigger condition holds, collect the
buffered pairs and (after releasing the lock) feed them one by one to the
user callback via `callEvictCB` (src/lru.go lines 82-86).  The second
component is the sequence of pairs delivered to the user callback. -/
def Cache.drain (c : Cache K V) (trigger : Bool) (purge : Bool) :
    Cache K V × List (K × V) :=
  if c.hasCB && trigger then
    let r := c.collectEvicted purge
    (r.2, r.1)
  else (c, [])

/-- Go `Cache.Add` (src/lru.go lines 100-111): engine Add under the lock,
then drain this call's evictions (copy form) when one occurred.  Results:
(new wrapper, evicted flag, pairs delivered to the user callback, engine
notifications fired inside the critical section). -/
def Cache.Add (c : Cache K V) (k : K) (v : V) :
    Option (Cache K V × Bool × List (K × V) × List (K × V)) :=
  match c.lru.Add k v with
  | none => none
  | some (l', ev, ps) =>
    let c1 := Cache.bufferNotifs { c with lru := l' } ps
    let r := c1.drain ev false
    some (r.1, ev, r.2, ps)

/-- Go `Cache.Get` (src/lru.go lines 113-119). -/
def Cache.Get (c : Cache K V) (k : K) : Cache K V × Option V :=
  let g := c.lru.Get k
  ({ c with lru := g.2 }, g.1)

/-- Go `Cache.GetOrAdd` (src/lru.go lines 139-156): engine Get under the
lock; on a hit return the previous value (found, no eviction); on a miss
engine Add and drain as `Cache.Add` does.  Results: (new wrapper, previous
value if found, evicted flag, delivered pairs, engine notifications). -/
def Cache.GetOrAdd (c : Cache K V) (k : K) (v : V) :
    Option (Cache K V × Option V × Bool × List (K × V) × List (K × V)) :=
  let g := c.lru.Get k
  match g.1 with
  | some prev => some ({ c with lru := g.2 }, some prev, false, [], [])
  | none =>
    match (g.2).Add k v with
    | none => none
    | some (l', ev, ps) =>
      let c1 := Cache.bufferNotifs { c with lru := l' } ps
      let r := c1.drain ev false
      some (r.1, none, ev, r.2, ps)

/-- Go `Cache.ContainsOrAdd` (src/lru.go lines 161-175). -/
def Cache.ContainsOrAdd (c : Cache K V) (k : K) (v : V) :
    Option (Cache K V × Bool × Bool × List (K × V) × List (K × V)) :=
  if c.lru.Contains k then some (c, true, false, [], [])
  else
    match c.lru.Add k v with
    | none => none
    | some (l', ev, ps) =>
      let c1 := Cache.bufferNotifs { c with lru := l' } ps
      let r := c1.drain ev false
      some (r.1, false, ev, r.2, ps)

/-- Go `Cache.PeekOrAdd` (src/lru.go lines 180-195). -/
def Cache.PeekOrAdd (c : Cache K V) (k : K) (v : V) :
    Option (Cache K V × Option V × Bool × List (K × V) × List (K × V)) :=
  match c.lru.Peek k with
  | some prev => some (c, some prev, false, [], [])
  | none =>
    match c.lru.Add k v with
    | none => none
    | some (l', ev, ps) =>
      let c1 := Cache.bufferNotifs { c with lru := l' } ps
      let r := c1.drain ev false
      some (r.1, none, ev, r.2, ps)

/-- Go `Cache.Remove` (src/lru.go lines 198-208). -/
def Cache.Remove (c : Cache K V) (k : K) :
    Cache K V × Bool × List (K × V) × List (K × V) :=
  let r0 := c.lru.Remove k
  let c1 := Cache.bufferNotifs { c with lru := r0.1 } r0.2.2
  let r := c1.drain r0.2.1 false
  (r.1, r0.2.1, r.2, r0.2.2)

/-- Go `Cache.Purge` (src/lru.go lines 89-98): engine Purge, then the
bulk (ownership-taking) drain when the buffer is nonempty. -/
def Cache.Purge (c : Cache K V) : Cache K V × List (K × V) × List (K × V) :=
  let p := c.lru.Purge
  let c1 := Cache.bufferNotifs { c with lru := p.1 } p.2
  let r := c1.drain (decide (0 < c1.evicted.length)) true
  (r.1, r.2, p.2)

/-- Go `Cache.Resize` (src/lru.go lines 211-221): engine Resize, then the
bulk drain when at least one entry was evicted. -/
def Cache.Resize (c : Cache K V) (s : Int) :
    Option (Cache K V × Nat × List (K × V) × List (K × V)) :=
  match c.lru.Resize s with
  | none => none
  | some (l', n, ps) =>
    let c1 := Cache.bufferNotifs { c with lru := l' } ps
    let r := c1.drain (decide (0 < n)) true
    some (r.1, n, r.2, ps)

/-- Go `Cache.ResetWeightLimit` (src/lru.go lines 224-234). -/
def Cache.ResetWeightLimit (c : Cache K V) (wl : Nat) :
    Option (Cache K V × Nat × List (K × V) × List (K × V)) :=
  match c.lru.ResetWeightLimit wl with
  | none => none
  | some (l', n, ps) =>
    let c1 := Cache.bufferNotifs { c with lru := l' } ps
    let r := c1.drain (decide (0 < n)) true
    some (r.1, n, r.2, ps)

/-- Go `Cache.RemoveOldest` (src/lru.go lines 237-247). -/
def Cache.RemoveOldest (c : Cache K V) :
    Cache K V × Option (K × V) × List (K × V) × List (K × V) :=
  let r0 := c.lru.RemoveOldest
  let c1 := Cache.bufferNotifs { c with lru := r0.1 } r0.2.2
  let r := c1.drain r0.2.1.isSome true
  (r.1, r0.2.1, r.2, r0.2.2)

/-- One wrapper operation, for reasoning about arbitrary operation
sequences against the wrapper API. -/
inductive WOp (K V : Type) where
  | add (k : K) (v : V)
  | get (k : K)
  | remove (k : K)
  | purge
  | resize (s : Int)
  | resetWeightLimit (wl : Nat)
  | removeOldest
  | getOrAdd (k : K) (v : V)
  | containsOrAdd (k : K) (v : V)
  | peekOrAdd (k : K) (v : V)

/-- Run one wrapper operation, keeping (new wrapper, pairs delivered to the
user callback, engine eviction notifications fired during the call). -/
def wStep (c : Cache K V) : WOp K V → Option (Cache K V × List (K × V) × List (K × V))
  | .add k v => (c.Add k v).map fun r => (r.1, r.2.2.1, r.2.2.2)
  | .get k => some ((c.Get k).1, [], [])
  | .remove k =>
    let r := c.Remove k
    some (r.1, r.2.2.1, r.2.2.2)
  | .purge =>
    let r := c.Purge
    some (r.1, r.2.1, r.2.2)
  | .resize s => (c.Resize s).map fun r => (r.1, r.2.2.1, r.2.2.2)
  | .resetWeightLimit wl =>
    (c.ResetWeightLimit wl).map fun r => (r.1, r.2.2.1, r.2.2.2)
  | .removeOldest =>
    let r := c.RemoveOldest
    some (r.1, r.2.2.1, r.2.2.2)
  | .getOrAdd k v => (c.GetOrAdd k v).map fun r => (r.1, r.2.2.2.1, r.2.2.2.2)
  | .containsOrAdd k v =>
    (c.ContainsOrAdd k v).map fun r => (r.1, r.2.2.2.1, r.2.2.2.2)
  | .peekOrAdd k v => (c.PeekOrAdd k v).map fun r => (r.1, r.2.2.2.1, r.2.2.2.2)

/-- Run a sequence of wrapper operations, concatenating the delivered pairs
and the engine notifications in order. -/
def runOps : Cache K V → List (WOp K V) → Option (Cache K V × List (K × V) × List (K × V))
  | c, [] => some (c, [], [])
  | c, op :: rest =>
    match wStep c op with
    | none => none
    | some (c1, d, ns) =>
      match runOps c1 rest with
      | none => none
      | some (c2, d2, ns2) => some (c2, d ++ d2, ns ++ ns2)

/-- A sequence of Add calls against the engine, in order. -/
def addAll (c : LRU K V) : List (K × V) → Option (LRU K V)
  | [] => some c
  | (k, v) :: rest =>
    match c.Add k v with
    | none => none
    | some r => addAll r.1 rest

/-- The weight-accounting invariant as the spec states it: the stored
uint64 `weightTotal` is the (wrapped) sum of the weights of the live
entries, and every stored weight is a uint64 value. -/
def WInv (c : LRU K V) : Prop :=
  c.weightTotal = sumWeights c.evictList % U64 ∧ ∀ e ∈ c.evictList, e.weight < U64

instance decWInv (c : LRU K V) : Decidable (WInv c) := by
  unfold WInv
  exact inferInstance

/-- The identity weight function on Nat values, as a uint64 calculator. -/
def wId : Option (Nat → Nat) := some fun v => v

/-- Weighted cache, size 10, weight limit 10, identity weight function. -/
def cW10 : LRU String Nat := ⟨10, 10, wId, 0, []⟩

/-- `cW10` after `Add "x" 6`. -/
def c9x : LRU String Nat := ⟨10, 10, wId, 6, [⟨"x", 6, 6⟩]⟩

/-- `c9x` after `Add "y" 6` (which evicts `"x"`). -/
def c9y : LRU String Nat := ⟨10, 10, wId, 6, [⟨"y", 6, 6⟩]⟩

/-- `c9x` after `Purge`: empty, but `weightTotal` still 6. -/
def c1purged : LRU String Nat := ⟨10, 10, wId, 6, []⟩

/-- Unweighted cache of size 1, empty. -/
def cS1 : LRU String Nat := ⟨1, 0, none, 0, []⟩

/-- `cS1` after `Add "a" 1`. -/
def c2withA : LRU String Nat := ⟨1, 0, none, 0, [⟨"a", 1, 0⟩]⟩

/-- Weighted cache, size 2, weight limit 10, identity weight function. -/
def cW2 : LRU String Nat := ⟨2, 10, wId, 0, []⟩

/-- `cW2` after `Add "x" 5`. -/
def c3x5 : LRU String Nat := ⟨2, 10, wId, 5, [⟨"x", 5, 5⟩]⟩

/-- Unweighted cache of size 3 holding a (older) and b. -/
def cNoW : LRU String Nat := ⟨3, 0, none, 0, [⟨"a", 1, 0⟩, ⟨"b", 2, 0⟩]⟩

/-- Unweighted cache of size 1 holding two entries (size pressure). -/
def c5two : LRU String Nat := ⟨1, 0, none, 0, [⟨"a", 1, 0⟩, ⟨"b", 2, 0⟩]⟩

/-- Weighted cache, size 3, weight limit 10, identity weight function. -/
def cW3 : LRU String Nat := ⟨3, 10, wId, 0, []⟩

/-- `cW3` after `Add "x" 6`. -/
def c8x : LRU String Nat := ⟨3, 10, wId, 6, [⟨"x", 6, 6⟩]⟩

/-- `c8x` after `Purge`: empty, with the stale `weightTotal` of 6. -/
def c8purged : LRU String Nat := ⟨3, 10, wId, 6, []⟩

/-- Unweighted cache of size 2 holding a (older) and b. -/
def c10two : LRU String Nat := ⟨2, 0, none, 0, [⟨"a", 1, 0⟩, ⟨"b", 2, 0⟩]⟩

/-- Wrapper (no callback) over an unweighted size-2 engine holding a then b. -/
def wAB : Cache String Nat := ⟨⟨2, 0, none, 0, [⟨"a", 1, 0⟩, ⟨"b", 2, 0⟩]⟩, [], false⟩

/-- `wAB` after the recency bump of a (a now most recent). -/
def wBA : Cache String Nat := ⟨⟨2, 0, none, 0, [⟨"b", 2, 0⟩, ⟨"a", 1, 0⟩]⟩, [], false⟩

/-- Fresh wrapper with a configured callback over an unweighted size-1 engine. -/
def wFresh : Cache Nat Nat := ⟨⟨1, 0, none, 0, []⟩, [], true⟩

/-- A wrapper workload: two Adds (the second evicts the first) then Purge. -/
def ops7 : List (WOp Nat Nat) := [.add 1 1, .add 2 2, .purge]

/-- The wrapper state after running `ops7` from `wFresh`. -/
def wFinal : Cache Nat Nat := ⟨⟨1, 0, none, 0, []⟩, [], true⟩

/-- `cS1` after `addAll` of a then b (b displaced a in the size-1 cache). -/
def c4end : LRU String Nat := ⟨1, 0, none, 0, [⟨"b", 2, 0⟩]⟩

/-- Weighted cache, size 5, weight limit 10, identity weight function,
holding y (weight 4, older) and x (weight 1). -/
def c3yx : LRU String Nat := ⟨5, 10, wId, 5, [⟨"y", 4, 4⟩, ⟨"x", 1, 1⟩]⟩

theorem listRemoveKey_cons_self (e : Entry K V) (t : List (Entry K V)) :
    listRemoveKey (e :: t) e.key = t := by
  simp [listRemoveKey]

theorem mem_of_mem_listRemoveKey {l : List (Entry K V)} {k : K} {e : Entry K V}
    (h : e ∈ listRemoveKey l k) : e ∈ l := by
  induction l with
  | nil => simpa [listRemoveKey] using h
  | cons a t ih =>
    by_cases hk : a.key = k
    · simp only [listRemoveKey, if_pos hk] at h
      exact List.mem_cons_of_mem _ h
    · simp only [listRemoveKey, if_neg hk, List.mem_cons] at h
      rcases h with h | h
      · exact h ▸ List.mem_cons_self _ _
      · exact List.mem_cons_of_mem _ (ih h)

theorem sumWeights_nil : sumWeights ([] : List (Entry K V)) = 0 := by
  simp [sumWeights]

theorem sumWeights_cons (e : Entry K V) (t : List (Entry K V)) :
    sumWeights (e :: t) = e.weight + sumWeights t := by
  simp [sumWeights]

theorem sumWeights_append (l : List (Entry K V)) (e : Entry K V) :
    sumWeights (l ++ [e]) = sumWeights l + e.weight := by
  simp [sumWeights]

theorem findEntry_eq_some {c : LRU K V} {k : K} {ent : Entry K V}
    (h : c.findEntry k = some ent) : ent ∈ c.evictList ∧ ent.key = k := by
  unfold LRU.findEntry at h
  refine ⟨List.mem_of_find?_eq_some h, ?_⟩
  have := List.find?_some h
  simpa using this

theorem sumWeights_listRemoveKey {l : List (Entry K V)} {k : K} {ent : Entry K V}
    (h : l.find? (fun e => decide (e.key = k)) = some ent) :
    sumWeights l = ent.weight + sumWeights (listRemoveKey l k) := by
  induction l with
  | nil => simp at h
  | cons a t ih =>
    by_cases hk : a.key = k
    · rw [List.find?_cons_of_pos _ (by simpa using hk)] at h
      injection h with h
      subst h
      simp only [listRemoveKey, if_pos hk, sumWeights_cons]
    · rw [List.find?_cons_of_neg _ (by simpa using hk)] at h
      simp only [listRemoveKey, if_neg hk, sumWeights_cons, ih h]
      omega

theorem length_listRemoveKey {l : List (Entry K V)} {k : K} {ent : Entry K V}
    (h : l.find? (fun e => decide (e.key = k)) = some ent) :
    (listRemoveKey l k).length + 1 = l.length := by
  induction l with
  | nil => simp at h
  | cons a t ih =>
    by_cases hk : a.key = k
    · simp only [listRemoveKey, if_pos hk, List.length_cons]
    · rw [List.find?_cons_of_neg _ (by simpa using hk)] at h
      simp only [listRemoveKey, if_neg hk, List.length_cons, ← ih h]

theorem perm_listRemoveKey {l : List (Entry K V)} {k : K} {ent : Entry K V}
    (h : l.find? (fun e => decide (e.key = k)) = some ent) :
    (listRemoveKey l k ++ [ent]).Perm l := by
  induction l with
  | nil => simp at h
  | cons a t ih =>
    by_cases hk : a.key = k
    · rw [List.find?_cons_of_pos _ (by simpa using hk)] at h
      injection h with h
      subst h
      simp only [listRemoveKey, if_pos hk]
      exact List.perm_append_singleton _ _
    · rw [List.find?_cons_of_neg _ (by simpa using hk)] at h
      simp only [listRemoveKey, if_neg hk, List.cons_append]
      exact (ih h).cons a

theorem checkEvictLoop_shape :
    ∀ (fuel : Nat) (c c' : LRU K V) (n : Nat) (ps : List (K × V)),
      LRU.checkEvictLoop fuel c = some (c', n, ps) →
      ps = (c.evictList.take n).map (fun e => (e.key, e.value))
      ∧ c'.evictList = c.evictList.drop n
      ∧ n ≤ c.evictList.length
      ∧ c'.size = c.size ∧ c'.weightLimit = c.weightLimit
      ∧ c'.weightCalculator = c.weightCalculator
      ∧ (c'.evictList.length : Int) ≤ c'.size ∧ c'.weightTotal ≤ c'.weightLimit := by
  intro fuel
  induction fuel with
  | zero =>
    intro c c' n ps h
    simp [LRU.checkEvictLoop] at h
  | succ fuel ih =>
    intro c c' n ps h
    rw [LRU.checkEvictLoop] at h
    by_cases hcond : (c.evictList.length : Int) > c.size ∨ c.weightTotal > c.weightLimit
    · rw [if_pos hcond] at h
      cases hl : c.evictList with
      | nil =>
        rw [hl] at h
        simp [listBack] at h
      | cons e t =>
        rw [hl] at h
        simp only [listBack, List.head?_cons] at h
        cases hrec : LRU.checkEvictLoop fuel (c.removeElement e).1 with
        | none =>
          rw [hrec] at h
          simp at h
        | some r =>
          obtain ⟨c₂, m, qs⟩ := r
          rw [hrec] at h
          simp only [Option.some.injEq, Prod.mk.injEq] at h
          obtain ⟨hc', hn, hps⟩ := h
          have hre : (c.removeElement e).1.evictList = t := by
            simp [LRU.removeElement, hl, listRemoveKey_cons_self]
          obtain ⟨hq, hdrop, hm, hsz, hwl, hwc, hb1, hb2⟩ := ih _ c₂ m qs hrec
          rw [hre] at hq hdrop hm
          subst hc' hn hps
          refine ⟨?_, ?_, ?_, hsz, hwl, hwc, hb1, hb2⟩
          · simp [hq]
          · simpa using hdrop
          · simpa using Nat.succ_le_succ hm
    · rw [if_neg hcond] at h
      push_neg at hcond
      simp only [Option.some.injEq, Prod.mk.injEq] at h
      obtain ⟨hc', hn, hps⟩ := h
      subst hc'
      refine ⟨by simp [← hps, ← hn], by simp [← hn], by simp [← hn], rfl, rfl, rfl, ?_, ?_⟩
      · exact le_of_not_lt (by simpa using hcond.1)
      · exact hcond.2

theorem checkEvict_shape {c c' : LRU K V} {n : Nat} {ps : List (K × V)}
    (h : c.checkEvict = some (c', n, ps)) :
    ps = (c.evictList.take n).map (fun e => (e.key, e.value))
    ∧ c'.evictList = c.evictList.drop n
    ∧ n ≤ c.evictList.length
    ∧ c'.size = c.size ∧ c'.weightLimit = c.weightLimit
    ∧ c'.weightCalculator = c.weightCalculator
    ∧ (c'.evictList.length : Int) ≤ c'.size ∧ c'.weightTotal ≤ c'.weightLimit :=
  checkEvictLoop_shape _ c c' n ps h

theorem checkEvict_count_eq_length {c c' : LRU K V} {n : Nat} {ps : List (K × V)}
    (h : c.checkEvict = some (c', n, ps)) : ps.length = n := by
  obtain ⟨hps, _, hn, _⟩ := checkEvict_shape h
  rw [hps]
  simp [List.length_take]
  omega

theorem checkEvictLoop_total :
    ∀ (fuel : Nat) (c : LRU K V), c.evictList.length < fuel → 0 ≤ c.size → WInv c →
      ∃ r, LRU.checkEvictLoop fuel c = some r ∧ WInv r.1 := by
  intro fuel
  induction fuel with
  | zero =>
    intro c h
    omega
  | succ fuel ih =>
    intro c hlen hsize hinv
    rw [LRU.checkEvictLoop]
    by_cases hcond : (c.evictList.length : Int) > c.size ∨ c.weightTotal > c.weightLimit
    · rw [if_pos hcond]
      cases hl : c.evictList with
      | nil =>
        exfalso
        have ht : c.weightTotal = 0 := by
          have h1 := hinv.1
          rw [hl, sumWeights_nil] at h1
          simpa using h1
        rw [hl] at hcond
        rcases hcond with h | h
        · simp at h
          omega
        · omega
      | cons e t =>
        simp only [listBack, List.head?_cons]
        have hew : e.weight < U64 := hinv.2 e (by rw [hl]; exact List.mem_cons_self _ _)
        have htw : ∀ x ∈ t, x.weight < U64 := by
          intro x hx
          exact hinv.2 x (by rw [hl]; exact List.mem_cons_of_mem _ hx)
        have hinv2 : WInv (c.removeElement e).1 := by
          constructor
          · show u64sub c.weightTotal e.weight = sumWeights (listRemoveKey c.evictList e.key) % U64
            rw [hl, listRemoveKey_cons_self]
            have h1 : c.weightTotal = sumWeights (e :: t) % U64 := by rw [← hl]; exact hinv.1
            rw [h1, sumWeights_cons]
            unfold u64sub U64
            unfold U64 at hew
            omega
          · show ∀ x ∈ listRemoveKey c.evictList e.key, x.weight < U64
            rw [hl, listRemoveKey_cons_self]
            exact htw
        have hre : (c.removeElement e).1.evictList = t := by
          simp [LRU.removeElement, hl, listRemoveKey_cons_self]
        have hlen2 : (c.removeElement e).1.evictList.length < fuel := by
          rw [hre]
          rw [hl] at hlen
          simpa using Nat.lt_of_succ_lt_succ hlen
        obtain ⟨r, hr, hrinv⟩ := ih _ hlen2 hsize hinv2
        obtain ⟨c₂, m, qs⟩ := r
        rw [hr]
        exact ⟨(c₂, m + 1, (e.key, e.value) :: qs), rfl, hrinv⟩
    · rw [if_neg hcond]
      exact ⟨(c, 0, []), rfl, hinv⟩

theorem checkEvict_spec (c : LRU K V) (hsize : 0 ≤ c.size) (hinv : WInv c) :
    ∃ c' n,
      c.checkEvict = some (c', n, (c.evictList.take n).map (fun e => (e.key, e.value)))
      ∧ c'.evictList = c.evictList.drop n ∧ n ≤ c.evictList.length
      ∧ c'.size = c.size ∧ c'.weightLimit = c.weightLimit
      ∧ c'.weightCalculator = c.weightCalculator
      ∧ (c'.evictList.length : Int) ≤ c.size ∧ c'.weightTotal ≤ c.weightLimit
      ∧ WInv c' := by
  obtain ⟨⟨c', n, ps⟩, hr, hrinv⟩ :=
    checkEvictLoop_total (c.evictList.length + 1) c (by omega) hsize hinv
  obtain ⟨hps, hdrop, hn, hsz, hwl, hwc, hb1, hb2⟩ := checkEvictLoop_shape _ c c' n ps hr
  refine ⟨c', n, by rw [← hps]; exact hr, hdrop, hn, hsz, hwl, hwc, ?_, ?_, hrinv⟩
  · rw [← hsz]
    exact hb1
  · rw [← hwl]
    exact hb2

theorem checkEvictLoop_stable :
    ∀ (f g : Nat) (c : LRU K V), c.evictList.length < f → c.evictList.length < g →
      LRU.checkEvictLoop f c = LRU.checkEvictLoop g c := by
  intro f
  induction f with
  | zero =>
    intro g c hf
    omega
  | succ f ih =>
    intro g c hf hg
    cases g with
    | zero => omega
    | succ g =>
      rw [LRU.checkEvictLoop, LRU.checkEvictLoop]
      by_cases hcond : (c.evictList.length : Int) > c.size ∨ c.weightTotal > c.weightLimit
      · rw [if_pos hcond, if_pos hcond]
        cases hl : c.evictList with
        | nil => rfl
        | cons e t =>
          simp only [listBack, List.head?_cons]
          have hre : (c.removeElement e).1.evictList = t := by
            simp [LRU.removeElement, hl, listRemoveKey_cons_self]
          have hlt : (c.removeElement e).1.evictList.length < f := by
            rw [hre]
            rw [hl] at hf
            simpa using Nat.lt_of_succ_lt_succ hf
          have hlt' : (c.removeElement e).1.evictList.length < g := by
            rw [hre]
            rw [hl] at hg
            simpa using Nat.lt_of_succ_lt_succ hg
          rw [ih g _ hlt hlt']
      · rw [if_neg hcond, if_neg hcond]

theorem U64_pos : 0 < U64 := by
  norm_num [U64]

theorem u64_update (T S A B W : Nat) (hT : T = S % U64) (hS : S = B + A) (hB : B < U64) :
    u64add (u64sub T B) (W % U64) = (A + W % U64) % U64 := by
  subst hT hS
  unfold u64add u64sub U64
  omega

theorem u64_keep (T S A B : Nat) (hT : T = S % U64) (hS : S = B + A) :
    T = (A + B) % U64 := by
  subst hT hS
  unfold U64
  omega

theorem u64_push (T S W : Nat) (hT : T = S % U64) :
    u64add T (W % U64) = (S + W % U64) % U64 := by
  subst hT
  unfold u64add U64
  omega

theorem map_checkEvict_spec (c1 : LRU K V) (hinv : WInv c1) (hsize : 0 ≤ c1.size) :
    ∃ c' n,
      ((c1.checkEvict).map fun r => (r.1, decide (0 < r.2.1), r.2.2))
        = some (c', decide (0 < n), (c1.evictList.take n).map (fun e => (e.key, e.value)))
      ∧ WInv c' ∧ c'.size = c1.size ∧ c'.weightLimit = c1.weightLimit
      ∧ c'.weightCalculator = c1.weightCalculator
      ∧ (c'.evictList.length : Int) ≤ c1.size ∧ c'.weightTotal ≤ c1.weightLimit := by
  obtain ⟨c', n, hce, _, _, hsz, hwl, hwc, hb1, hb2, hinv'⟩ := checkEvict_spec c1 hsize hinv

  exact ⟨c', n, by rw [hce]; rfl, hinv', hsz, hwl, hwc, hb1, hb2⟩

theorem Add_spec (c : LRU K V) (k : K) (v : V) (hsize : 0 ≤ c.size) (hinv : WInv c) :
    ∃ c' ev ps, c.Add k v = some (c', ev, ps)
      ∧ WInv c' ∧ c'.size = c.size ∧ c'.weightLimit = c.weightLimit
      ∧ c'.weightCalculator = c.weightCalculator
      ∧ (c'.evictList.length : Int) ≤ c.size ∧ c'.weightTotal ≤ c.weightLimit := by
  cases hf : c.findEntry k with
  | some ent =>
    have hf' : c.evictList.find? (fun e => decide (e.key = k)) = some ent := hf
    have hment : ent.weight < U64 := hinv.2 ent (findEntry_eq_some hf).1
    have hsum := sumWeights_listRemoveKey hf'
    cases hwc : c.weightCalculator with
    | some wc =>
      have hinv1 : WInv (⟨c.size, c.weightLimit, some wc,
          u64add (u64sub c.weightTotal ent.weight) (wc v % U64),
          listMoveToFront c.evictList k ⟨k, v, wc v % U64⟩⟩ : LRU K V) := by
        constructor
        · show u64add (u64sub c.weightTotal ent.weight) (wc v % U64)
            = sumWeights (listMoveToFront c.evictList k ⟨k, v, wc v % U64⟩) % U64
          rw [listMoveToFront, sumWeights_append]
          exact u64_update _ _ _ _ _ hinv.1 hsum hment
        · intro x hx
          dsimp only at hx
          rw [listMoveToFront] at hx
          rcases List.mem_append.1 hx with hx | hx
          · exact hinv.2 x (mem_of_mem_listRemoveKey hx)
          · have hx' : x = ⟨k, v, wc v % U64⟩ := by simpa using hx
            rw [hx']
            exact Nat.mod_lt _ U64_pos
      obtain ⟨c', n, hmap, hinv', hsz, hwl, hwc', hb1, hb2⟩ :=
        map_checkEvict_spec _ hinv1 hsize
      exact ⟨c', _, _, by simp only [LRU.Add, hf, hwc]; exact hmap,
        hinv', hsz, hwl, hwc', hb1, hb2⟩
    | none =>
      have hinv1 : WInv (⟨c.size, c.weightLimit, none, c.weightTotal,
          listMoveToFront c.evictList k ⟨k, v, ent.weight⟩⟩ : LRU K V) := by
        constructor
        · show c.weightTotal
            = sumWeights (listMoveToFront c.evictList k ⟨k, v, ent.weight⟩) % U64
          rw [listMoveToFront, sumWeights_append]
          exact u64_keep _ _ _ _ hinv.1 hsum
        · intro x hx
          dsimp only at hx
          rw [listMoveToFront] at hx
          rcases List.mem_append.1 hx with hx | hx
          · exact hinv.2 x (mem_of_mem_listRemoveKey hx)
          · have hx' : x = ⟨k, v, ent.weight⟩ := by simpa using hx
            rw [hx']
            exact hment
      obtain ⟨c', n, hmap, hinv', hsz, hwl, hwc', hb1, hb2⟩ :=
        map_checkEvict_spec _ hinv1 hsize
      exact ⟨c', _, _, by simp only [LRU.Add, hf, hwc]; exact hmap,
        hinv', hsz, hwl, hwc', hb1, hb2⟩
  | none =>
    cases hwc : c.weightCalculator with
    | some wc =>
      have hinv1 : WInv (⟨c.size, c.weightLimit, some wc,
          u64add c.weightTotal (wc v % U64),
          listPushFront c.evictList ⟨k, v, wc v % U64⟩⟩ : LRU K V) := by
        constructor
        · show u64add c.weightTotal (wc v % U64)
            = sumWeights (listPushFront c.evictList ⟨k, v, wc v % U64⟩) % U64
          rw [listPushFront, sumWeights_append]
          exact u64_push _ _ _ hinv.1
        · intro x hx
          dsimp only at hx
          rw [listPushFront] at hx
          rcases List.mem_append.1 hx with hx | hx
          · exact hinv.2 x hx
          · have hx' : x = ⟨k, v, wc v % U64⟩ := by simpa using hx
            rw [hx']
            exact Nat.mod_lt _ U64_pos
      obtain ⟨c', n, hmap, hinv', hsz, hwl, hwc', hb1, hb2⟩ :=
        map_checkEvict_spec _ hinv1 hsize
      exact ⟨c', _, _, by simp only [LRU.Add, hf, hwc]; exact hmap,
        hinv', hsz, hwl, hwc', hb1, hb2⟩
    | none =>
      have hinv1 : WInv (⟨c.size, c.weightLimit, none, c.weightTotal,
          listPushFront c.evictList ⟨k, v, 0⟩⟩ : LRU K V) := by
        constructor
        · show c.weightTotal = sumWeights (listPushFront c.evictList ⟨k, v, 0⟩) % U64
          rw [listPushFront, sumWeights_append]
          simpa using hinv.1
        · intro x hx
          dsimp only at hx
          rw [listPushFront] at hx
          rcases List.mem_append.1 hx with hx | hx
          · exact hinv.2 x hx
          · have hx' : x = ⟨k, v, 0⟩ := by simpa using hx
            rw [hx']
            exact U64_pos
      obtain ⟨c', n, hmap, hinv', hsz, hwl, hwc', hb1, hb2⟩ :=
        map_checkEvict_spec _ hinv1 hsize
      exact ⟨c', _, _, by simp only [LRU.Add, hf, hwc]; exact hmap,
        hinv', hsz, hwl, hwc', hb1, hb2⟩

theorem map_flag {c1 c' : LRU K V} {ev : Bool} {ps : List (K × V)}
    (h : ((c1.checkEvict).map fun r => (r.1, decide (0 < r.2.1), r.2.2))
      = some (c', ev, ps)) :
    ev = true ↔ ps ≠ [] := by
  cases hce : c1.checkEvict with
  | none =>
    rw [hce] at h
    simp at h
  | some r =>
    obtain ⟨c₂, n, qs⟩ := r
    rw [hce] at h
    simp only [Option.map_some', Option.some.injEq, Prod.mk.injEq] at h
    obtain ⟨h1, h2, h3⟩ := h
    have hlen := checkEvict_count_eq_length hce
    subst h2 h3
    rw [← hlen]
    cases qs <;> simp

theorem Add_flag {c c' : LRU K V} {k : K} {v : V} {ev : Bool} {ps : List (K × V)}
    (h : c.Add k v = some (c', ev, ps)) : ev = true ↔ ps ≠ [] := by
  cases hf : c.findEntry k with
  | some ent =>
    cases hwc : c.weightCalculator with
    | some wc =>
      simp only [LRU.Add, hf, hwc] at h
      exact map_flag h
    | none =>
      simp only [LRU.Add, hf, hwc] at h
      exact map_flag h
  | none =>
    cases hwc : c.weightCalculator with
    | some wc =>
      simp only [LRU.Add, hf, hwc] at h
      exact map_flag h
    | none =>
      simp only [LRU.Add, hf, hwc] at h
      exact map_flag h

theorem Resize_flag {c c' : LRU K V} {s : Int} {n : Nat} {ps : List (K × V)}
    (h : c.Resize s = some (c', n, ps)) : 0 < n ↔ ps ≠ [] := by
  have hlen := checkEvict_count_eq_length h
  rw [← hlen]
  cases ps <;> simp

theorem ResetWeightLimit_flag {c c' : LRU K V} {wl : Nat} {n : Nat} {ps : List (K × V)}
    (h : c.ResetWeightLimit wl = some (c', n, ps)) : 0 < n ↔ ps ≠ [] := by
  have hlen := checkEvict_count_eq_length h
  rw [← hlen]
  cases ps <;> simp

theorem collectCopy_eq_collectOwn (buf : List (K × V)) :
    collectCopy buf = collectOwn buf := by
  unfold collectCopy collectOwn
  simp [List.ofFn_get]

theorem drain_spec (c1 : Cache K V) (trigger purge : Bool)
    (hcb : c1.hasCB = true) (htrig : trigger = false → c1.evicted = []) :
    c1.drain trigger purge = ({ c1 with evicted := [] }, c1.evicted) := by
  obtain ⟨l, ev, cb⟩ := c1
  simp only at hcb htrig
  subst hcb
  cases trigger with
  | false =>
    have hbuf := htrig rfl
    simp only at hbuf
    subst hbuf
    simp [Cache.drain]
  | true =>
    unfold Cache.drain Cache.collectEvicted
    simp only [Bool.and_true, if_true]
    by_cases hlen : ev.length = 0
    · have hbuf : ev = [] := List.eq_nil_of_length_eq_zero hlen
      subst hbuf
      simp
    · rw [if_neg hlen]
      cases purge with
      | false =>
        simp [collectCopy_eq_collectOwn, collectOwn]
      | true =>
        simp [collectOwn]

theorem bufferNotifs_cb {c : Cache K V} (l' : LRU K V) (ps : List (K × V))
    (hcb : c.hasCB = true) (hbuf : c.evicted = []) :
    Cache.bufferNotifs { c with lru := l' } ps = ⟨l', ps, true⟩ := by
  obtain ⟨l, ev, cb⟩ := c
  simp only at hcb hbuf
  subst hcb hbuf
  simp [Cache.bufferNotifs]

theorem flag_none {α : Type} {ev : Bool} {ps : List α}
    (hflag : ev = true ↔ ps ≠ []) (hev : ev = false) : ps = [] := by
  by_contra hne
  rw [hflag.2 hne] at hev
  cases hev

theorem tail_spec (c : Cache K V) (l' : LRU K V) (ps : List (K × V))
    (trigger purge : Bool)
    (hcb : c.hasCB = true) (hbuf : c.evicted = [])
    (htrig : trigger = false → ps = []) :
    (Cache.bufferNotifs { c with lru := l' } ps).drain trigger purge
      = (⟨l', [], true⟩, ps) := by
  rw [bufferNotifs_cb l' ps hcb hbuf]
  rw [drain_spec ⟨l', ps, true⟩ trigger purge rfl htrig]

theorem wStep_delivery (c : Cache K V) (op : WOp K V) (c' : Cache K V)
    (d ns : List (K × V))
    (hcb : c.hasCB = true) (hbuf : c.evicted = [])
    (h : wStep c op = some (c', d, ns)) :
    d = ns ∧ c'.evicted = [] ∧ c'.hasCB = true := by
  cases op with
  | add k v =>
    cases hLa : c.lru.Add k v with
    | none =>
      simp [wStep, Cache.Add, hLa] at h
    | some r =>
      obtain ⟨l', ev, ps⟩ := r
      have hflag := Add_flag hLa
      simp only [wStep, Cache.Add, hLa] at h
      rw [tail_spec c l' ps ev false hcb hbuf (flag_none hflag)] at h
      simp only [Option.map_some', Option.some.injEq, Prod.mk.injEq] at h
      obtain ⟨h1, h2, h3⟩ := h
      subst h1 h2 h3
      exact ⟨rfl, rfl, rfl⟩
  | get k =>
    simp only [wStep] at h
    obtain ⟨h1, h2, h3⟩ := by simpa [Prod.ext_iff] using h
    subst h2 h3
    refine ⟨rfl, ?_, ?_⟩
    · rw [← h1]
      exact hbuf
    · rw [← h1]
      exact hcb
  | remove k =>
    cases hf : c.lru.findEntry k with
    | some ent =>
      simp only [wStep, Cache.Remove, LRU.Remove, hf] at h
      rw [tail_spec c _ _ true false hcb hbuf (fun hx => nomatch hx)] at h
      simp only [Option.some.injEq, Prod.mk.injEq] at h
      obtain ⟨h1, h2, h3⟩ := h
      subst h1 h2 h3
      exact ⟨rfl, rfl, rfl⟩
    | none =>
      simp only [wStep, Cache.Remove, LRU.Remove, hf] at h
      rw [tail_spec c c.lru [] false false hcb hbuf (fun _ => rfl)] at h
      simp only [Option.some.injEq, Prod.mk.injEq] at h
      obtain ⟨h1, h2, h3⟩ := h
      subst h1 h2 h3
      exact ⟨rfl, rfl, rfl⟩
  | purge =>
    simp only [wStep, Cache.Purge, LRU.Purge] at h
    rw [tail_spec c _ _ _ true hcb hbuf ?_] at h
    · simp only [Option.some.injEq, Prod.mk.injEq] at h
      obtain ⟨h1, h2, h3⟩ := h
      subst h1 h2 h3
      exact ⟨rfl, rfl, rfl⟩
    · intro hd
      have := of_decide_eq_false hd
      rw [bufferNotifs_cb _ _ hcb hbuf] at this
      simpa using this
  | resize s =>
    cases hR : c.lru.Resize s with
    | none =>
      simp [wStep, Cache.Resize, hR] at h
    | some r =>
      obtain ⟨l', n, ps⟩ := r
      have hflag := Resize_flag hR
      simp only [wStep, Cache.Resize, hR] at h
      rw [tail_spec c l' ps _ true hcb hbuf ?_] at h
      · simp only [Option.map_some', Option.some.injEq, Prod.mk.injEq] at h
        obtain ⟨h1, h2, h3⟩ := h
        subst h1 h2 h3
        exact ⟨rfl, rfl, rfl⟩
      · intro hd
        have hn := of_decide_eq_false hd
        rcases ps with _ | ⟨p, ps⟩
        · rfl
        · exact absurd (hflag.2 (by simp)) hn
  | resetWeightLimit wl =>
    cases hR : c.lru.ResetWeightLimit wl with
    | none =>
      simp [wStep, Cache.ResetWeightLimit, hR] at h
    | some r =>
      obtain ⟨l', n, ps⟩ := r
      have hflag := ResetWeightLimit_flag hR
      simp only [wStep, Cache.ResetWeightLimit, hR] at h
      rw [tail_spec c l' ps _ true hcb hbuf ?_] at h
      · simp only [Option.map_some', Option.some.injEq, Prod.mk.injEq] at h
        obtain ⟨h1, h2, h3⟩ := h
        subst h1 h2 h3
        exact ⟨rfl, rfl, rfl⟩
      · intro hd
        have hn := of_decide_eq_false hd
        rcases ps with _ | ⟨p, ps⟩
        · rfl
        · exact absurd (hflag.2 (by simp)) hn
  | removeOldest =>
    cases hB : listBack c.lru.evictList with
    | some ent =>
      simp only [wStep, Cache.RemoveOldest, LRU.RemoveOldest, hB, Option.isSome_some] at h
      rw [tail_spec c _ _ true true hcb hbuf (fun hx => nomatch hx)] at h
      simp only [Option.some.injEq, Prod.mk.injEq] at h
      obtain ⟨h1, h2, h3⟩ := h
      subst h1 h2 h3
      exact ⟨rfl, rfl, rfl⟩
    | none =>
      simp only [wStep, Cache.RemoveOldest, LRU.RemoveOldest, hB, Option.isSome_none] at h
      rw [tail_spec c c.lru [] false true hcb hbuf (fun _ => rfl)] at h
      simp only [Option.some.injEq, Prod.mk.injEq] at h
      obtain ⟨h1, h2, h3⟩ := h
      subst h1 h2 h3
      exact ⟨rfl, rfl, rfl⟩
  | getOrAdd k v =>
    cases hf : c.lru.findEntry k with
    | some ent =>
      simp only [wStep, Cache.GetOrAdd, LRU.Get, hf] at h
      simp only [Option.map_some', Option.some.injEq, Prod.mk.injEq] at h
      obtain ⟨h1, h2, h3⟩ := h
      subst h2 h3
      refine ⟨rfl, ?_, ?_⟩
      · rw [← h1]
        exact hbuf
      · rw [← h1]
        exact hcb
    | none =>
      cases hLa : c.lru.Add k v with
      | none =>
        simp [wStep, Cache.GetOrAdd, LRU.Get, hf, hLa] at h
      | some r =>
        obtain ⟨l', ev, ps⟩ := r
        have hflag := Add_flag hLa
        simp only [wStep, Cache.GetOrAdd, LRU.Get, hf, hLa] at h
        rw [tail_spec c l' ps ev false hcb hbuf (flag_none hflag)] at h
        simp only [Option.map_some', Option.some.injEq, Prod.mk.injEq] at h
        obtain ⟨h1, h2, h3⟩ := h
        subst h1 h2 h3
        exact ⟨rfl, rfl, rfl⟩
  | containsOrAdd k v =>
    cases hC : c.lru.Contains k with
    | true =>
      simp only [wStep, Cache.ContainsOrAdd, hC] at h
      simp only [Option.map_some', Option.some.injEq, Prod.mk.injEq, if_true] at h
      obtain ⟨h1, h2, h3⟩ := h
      subst h2 h3
      refine ⟨rfl, ?_, ?_⟩
      · rw [← h1]
        exact hbuf
      · rw [← h1]
        exact hcb
    | false =>
      cases hLa : c.lru.Add k v with
      | none =>
        simp [wStep, Cache.ContainsOrAdd, hC, hLa] at h
      | some r =>
        obtain ⟨l', ev, ps⟩ := r
        have hflag := Add_flag hLa
        simp only [wStep, Cache.ContainsOrAdd, hC, hLa] at h
        rw [tail_spec c l' ps ev false hcb hbuf (flag_none hflag)] at h
        rw [if_neg (by simp)] at h
        simp only [Option.map_some', Option.some.injEq, Prod.mk.injEq] at h
        obtain ⟨h1, h2, h3⟩ := h
        subst h1 h2 h3
        exact ⟨rfl, rfl, rfl⟩
  | peekOrAdd k v =>
    cases hP : c.lru.Peek k with
    | some prev =>
      simp only [wStep, Cache.PeekOrAdd, hP] at h
      simp only [Option.map_some', Option.some.injEq, Prod.mk.injEq] at h
      obtain ⟨h1, h2, h3⟩ := h
      subst h2 h3
      refine ⟨rfl, ?_, ?_⟩
      · rw [← h1]
        exact hbuf
      · rw [← h1]
        exact hcb
    | none =>
      cases hLa : c.lru.Add k v with
      | none =>
        simp [wStep, Cache.PeekOrAdd, hP, hLa] at h
      | some r =>
        obtain ⟨l', ev, ps⟩ := r
        have hflag := Add_flag hLa
        simp only [wStep, Cache.PeekOrAdd, hP, hLa] at h
        rw [tail_spec c l' ps ev false hcb hbuf (flag_none hflag)] at h
        simp only [Option.map_some', Option.some.injEq, Prod.mk.injEq] at h
        obtain ⟨h1, h2, h3⟩ := h
        subst h1 h2 h3
        exact ⟨rfl, rfl, rfl⟩

theorem runOps_delivery :
    ∀ (ops : List (WOp K V)) (c : Cache K V) (c' : Cache K V) (d ns : List (K × V)),
      c.hasCB = true → c.evicted = [] → runOps c ops = some (c', d, ns) →
      d = ns ∧ c'.evicted = [] := by
  intro ops
  induction ops with
  | nil =>
    intro c c' d ns hcb hbuf h
    simp only [runOps, Option.some.injEq, Prod.mk.injEq] at h
    obtain ⟨h1, h2, h3⟩ := h
    subst h2 h3
    exact ⟨rfl, by rw [← h1]; exact hbuf⟩
  | cons op rest ih =>
    intro c c' d ns hcb hbuf h
    rw [runOps] at h
    cases hstep : wStep c op with
    | none =>
      rw [hstep] at h
      cases h
    | some r =>
      obtain ⟨c1, d1, ns1⟩ := r
      rw [hstep] at h
      dsimp only at h
      obtain ⟨hd1, hbuf1, hcb1⟩ := wStep_delivery c op c1 d1 ns1 hcb hbuf hstep
      cases hrest : runOps c1 rest with
      | none =>
        rw [hrest] at h
        cases h
      | some r2 =>
        obtain ⟨c2, d2, ns2⟩ := r2
        rw [hrest] at h
        obtain ⟨hd2, hbuf2⟩ := ih c1 c2 d2 ns2 hcb1 hbuf1 hrest
        simp only [Option.some.injEq, Prod.mk.injEq] at h
        obtain ⟨h1, h2, h3⟩ := h
        subst h1 h2 h3
        exact ⟨by rw [hd1, hd2], hbuf2⟩

/-- C1: the spec claims `WeightTotal()` always equals the sum of
`weightFn(value)` over the currently-present entries, in particular 0 after
`Purge()`.  The code violates this: `LRU.Purge` (src/unnamed/part_000 lines
52-61) deletes every entry and re-inits the list but never resets
`c.weightTotal`.  Concretely, on the weighted cache `cW10` (size 10, limit
10, identity weight function), `Add "x" 6` then `Purge` leaves an empty
cache whose `WeightTotal()` still returns 6 while the sum over present
entries is 0 — contradicting the claim and the source's own doc comment on
`WeightTotal` ("the sum of the weight of all the entries in the cache"). -/
theorem C1_purge_stale_weightTotal :
    cW10.Add "x" 6 = some (c9x, false, [])
    ∧ c9x.Purge = (c1purged, [("x", 6)])
    ∧ c1purged.Len = 0
    ∧ c1purged.WeightTotal = 6
    ∧ sumWeights c1purged.evictList = 0 :=
  ⟨rfl, rfl, rfl, rfl, rfl⟩

/-- C2: the spec claims the eviction-check loop always terminates without
failure, in at most `length()` iterations, even when `size ≤ 0`.  The code
violates this for negative sizes: on a one-entry cache, `Resize (-1)` (no
validation) empties the store in one iteration, after which the loop
condition `0 > -1` still holds and `back()` is nil — the Go code
dereferences it (despite its own `// never be nil` comment), modelled here
as `none`. -/
theorem C2_resize_negative_fails :
    cS1.Add "a" 1 = some (c2withA, false, [])
    ∧ c2withA.Resize (-1) = none :=
  ⟨rfl, rfl⟩

/-- C9: weighted cache with weight limit 10 and identity weight function:
`Add "x" 6` evicts nothing; `Add "y" 6` reports evicted = true (6 + 6 = 12
exceeds 10, so "x", the back entry, is evicted); afterwards `WeightTotal()`
is 6 and `Keys()` is exactly ["y"]. -/
theorem C9_weighted_example :
    cW10.Add "x" 6 = some (c9x, false, [])
    ∧ c9x.Add "y" 6 = some (c9y, true, [("x", 6)])
    ∧ c9y.WeightTotal = 6
    ∧ c9y.Keys = ["y"] :=
  ⟨rfl, rfl, rfl, rfl⟩

/-- C3 counterexample: the claim says Add on an already-present key never
evicts that same key.  On `c3x5` (size 2, weight limit 10, identity weight
function, holding x with weight 5), updating the present key "x" with value
20 makes the new total 20 exceed the limit, and the eviction check evicts
the updated entry "x" itself — the notification list names "x". -/
theorem C3_counterexample :
    c3x5.Contains "x" = true
    ∧ c3x5.Add "x" 20 = some (⟨2, 10, wId, 0, []⟩, true, [("x", 20)]) :=
  ⟨rfl, rfl⟩

/-- C8 counterexample: the claim says construction is the only possible
failure and every per-call method is total.  But after `Add "x" 6` and
`Purge` (which leaves the stale weight total 6 in the otherwise empty
cache, see C1), the per-call method `ResetWeightLimit 5` enters the
eviction loop with `weightTotal = 6 > 5` and an empty store, and
dereferences the nil `back()` — a runtime failure outside construction,
modelled as `none`. -/
theorem C8_counterexample :
    cW3.Add "x" 6 = some (c8x, false, [])
    ∧ c8x.Purge = (c8purged, [("x", 6)])
    ∧ c8purged.ResetWeightLimit 5 = none :=
  ⟨rfl, rfl, rfl⟩

/-- C6 counterexample: the claim says GetOrAdd on a hit performs no
mutation, in particular no recency-order change.  But `Cache.GetOrAdd`
uses `LRU.Get` on the hit path, which moves the hit entry to the front:
on `wAB` (entries a then b, a oldest), `GetOrAdd "a" 9` returns the stored
value 1 with found = true and evicted = false, yet `Keys()` changes from
["a", "b"] to ["b", "a"]. -/
theorem C6_counterexample :
    wAB.lru.Keys = ["a", "b"]
    ∧ Cache.GetOrAdd wAB "a" 9 = some (wBA, some 1, false, [], [])
    ∧ wBA.lru.Keys = ["b", "a"] :=
  ⟨rfl, rfl, rfl⟩

/-- C5: whenever the eviction check removes entries, it removes exactly the
current back-of-list (least-recently-touched) entries, one per iteration:
for any successful run evicting n entries, the notifications are the
oldest-first prefix of length n of the entry list (in order) and the
surviving entries are the remaining suffix.  Count pressure and weight
pressure both go through this single victim-selection rule — no other
entry is ever removed. -/
theorem C5_victims_are_oldest {c c' : LRU K V} {n : Nat} {ps : List (K × V)}
    (h : c.checkEvict = some (c', n, ps)) :
    ps = (c.evictList.take n).map (fun e => (e.key, e.value))
    ∧ c'.evictList = c.evictList.drop n := by
  obtain ⟨h1, h2, _⟩ := checkEvict_shape h
  exact ⟨h1, h2⟩

theorem C5_victims_are_oldest_witness :
    c5two.checkEvict = some (⟨1, 0, none, 0, [⟨"b", 2, 0⟩]⟩, 1, [("a", 1)])
    ∧ [("a", 1)] = (c5two.evictList.take 1).map (fun e => (e.key, e.value))
    ∧ ([⟨"b", 2, 0⟩] : List (Entry String Nat)) = c5two.evictList.drop 1 := by
  have h : c5two.checkEvict
      = some (⟨1, 0, none, 0, [⟨"b", 2, 0⟩]⟩, 1, [("a", 1)]) := rfl
  obtain ⟨h1, h2⟩ := C5_victims_are_oldest h
  exact ⟨h, h1, h2⟩

/-- C10: Resize performs no validation of its argument: on any cache
satisfying the weight-accounting invariant, `Resize 0` succeeds without
error, removes all entries oldest first (firing one eviction notification
per entry, in order), returns the old entry count as the evicted count,
and leaves `Len() = 0`. -/
theorem C10_resize_zero (c : LRU K V) (hinv : WInv c) :
    ∃ c', c.Resize 0
        = some (c', c.evictList.length, c.evictList.map (fun e => (e.key, e.value)))
      ∧ c'.evictList = [] ∧ c'.Len = 0 := by
  obtain ⟨c', n, hce, hdrop, hn, hsz, hwl, hwc, hb1, hb2, hinv'⟩ :=
    checkEvict_spec (⟨0, c.weightLimit, c.weightCalculator, c.weightTotal,
      c.evictList⟩ : LRU K V) (le_refl 0) hinv
  have hb1' : (c'.evictList.length : Int) ≤ 0 := hb1
  have hnd : n ≤ c.evictList.length := hn
  have hdr : c'.evictList = List.drop n c.evictList := hdrop
  have hlen0 : c'.evictList.length = 0 := by omega
  have hnil : c'.evictList = [] := List.eq_nil_of_length_eq_zero hlen0
  have hn' : n = c.evictList.length := by
    have hd : (List.drop n c.evictList).length = 0 := by
      rw [← hdr, hlen0]
    rw [List.length_drop] at hd
    omega
  subst hn'
  refine ⟨c', ?_, hnil, ?_⟩
  · show LRU.checkEvict _ = _
    rw [hce, List.take_length]
  · unfold LRU.Len
    rw [hnil]
    rfl

theorem C10_resize_zero_witness :
    WInv c10two
    ∧ c10two.Resize 0 = some (⟨0, 0, none, 0, []⟩, c10two.evictList.length,
        c10two.evictList.map (fun e => (e.key, e.value))) := by
  obtain ⟨c', h1, h2, h3⟩ := C10_resize_zero c10two (by decide)
  have hr : c10two.Resize 0
      = some (⟨0, 0, none, 0, []⟩, 2, [("a", 1), ("b", 2)]) := rfl
  refine ⟨by decide, ?_⟩
  rw [h1] at hr
  have hc : c' = (⟨0, 0, none, 0, []⟩ : LRU String Nat) := by
    have := Option.some.inj hr
    exact congrArg Prod.fst this
  rw [← hc]
  exact h1

theorem addAll_spec :
    ∀ (ops : List (K × V)) (c : LRU K V), WInv c → 0 ≤ c.size →
      (c.evictList.length : Int) ≤ c.size → c.weightTotal ≤ c.weightLimit →
      ∃ c', addAll c ops = some c'
        ∧ WInv c' ∧ c'.size = c.size ∧ c'.weightLimit = c.weightLimit
        ∧ (c'.evictList.length : Int) ≤ c.size ∧ c'.weightTotal ≤ c.weightLimit := by
  intro ops
  induction ops with
  | nil =>
    intro c hinv hsize hlen hwt
    exact ⟨c, rfl, hinv, rfl, rfl, hlen, hwt⟩
  | cons p rest ih =>
    intro c hinv hsize hlen hwt
    obtain ⟨k, v⟩ := p
    obtain ⟨c1, ev, ps, hAdd, hinv1, hsz1, hwl1, hwc1, hb1, hb2⟩ :=
      Add_spec c k v hsize hinv
    obtain ⟨c', hrun, hinv', hsz', hwl', hb1', hb2'⟩ :=
      ih c1 hinv1 (by rw [hsz1]; exact hsize) (by rw [hsz1]; exact hb1)
        (by rw [hwl1]; exact hb2)
    refine ⟨c', ?_, hinv', by rw [hsz', hsz1], by rw [hwl', hwl1], ?_, ?_⟩
    · rw [addAll, hAdd]
      exact hrun
    · rw [← hsz1]
      exact hb1'
    · rw [← hwl1]
      exact hb2'

/-- C4: capacity invariant.  For every cache constructed with a positive
size (and any weight limit and optional weight function), running any
sequence of Add calls succeeds, and afterwards `Len() ≤ size` and
`weightTotal ≤ weightLimit`.  Since the theorem holds for every operation
list, applying it to each prefix of a sequence gives the bound after every
individual Add call. -/
theorem C4_capacity_invariant (size : Int) (weightLimit : Nat)
    (wc : Option (V → Nat)) (ops : List (K × V)) (c0 : LRU K V)
    (hpos : 0 < size)
    (hnew : NewLRUWithWeightLimit size weightLimit wc = .ok c0) :
    ∃ c', addAll c0 ops = some c'
      ∧ (c'.Len : Int) ≤ size ∧ c'.WeightTotal ≤ weightLimit := by
  have hc0 : c0 = ⟨size, weightLimit, wc, 0, []⟩ := by
    unfold NewLRUWithWeightLimit at hnew
    rw [if_neg (not_le.2 hpos)] at hnew
    exact (Except.ok.inj hnew).symm
  subst hc0
  obtain ⟨c', hrun, hinv', hsz', hwl', hb1', hb2'⟩ :=
    addAll_spec ops ⟨size, weightLimit, wc, 0, []⟩
      (by constructor
          · show (0 : Nat) = sumWeights ([] : List (Entry K V)) % U64
            rw [sumWeights_nil]
            rfl
          · intro e he
            cases he)
      (le_of_lt hpos) (by show (0 : Int) ≤ size; omega)
      (by show (0 : Nat) ≤ weightLimit; omega)
  exact ⟨c', hrun, hb1', hb2'⟩

theorem C4_capacity_invariant_witness :
    (0 : Int) < 1
    ∧ NewLRUWithWeightLimit 1 0 none = Except.ok cS1
    ∧ addAll cS1 [("a", 1), ("b", 2)] = some c4end
    ∧ (c4end.Len : Int) ≤ 1 ∧ c4end.WeightTotal ≤ 0 := by
  obtain ⟨c', hrun, hb1, hb2⟩ :=
    C4_capacity_invariant 1 0 none [("a", 1), ("b", 2)] cS1 (by decide) rfl
  have hr : addAll cS1 [("a", 1), ("b", 2)] = some c4end := rfl
  rw [hrun] at hr
  have hc : c' = c4end := Option.some.inj hr
  subst hc
  exact ⟨by decide, rfl, hrun, hb1, hb2⟩

/-- C3 amended: Add on an already-present key evicts nothing when no weight
calculator is configured (given that the capacity bounds held beforehand);
when a weight calculator is configured, the eviction check run by Add may
evict other entries (shown here on `c3yx`, where updating "x" evicts "y"),
and may also evict the updated key itself when its new weight pushes the
total past the limit even after all other entries are gone (see
C3_counterexample). -/
theorem C3_amended :
    (∀ (c : LRU K V) (k : K) (v : V) (ent : Entry K V),
      c.weightCalculator = none → c.findEntry k = some ent →
      (c.evictList.length : Int) ≤ c.size → c.weightTotal ≤ c.weightLimit →
      c.Add k v = some
        (⟨c.size, c.weightLimit, none, c.weightTotal,
          listMoveToFront c.evictList k ⟨k, v, ent.weight⟩⟩, false, []))
    ∧ c3yx.Contains "x" = true
    ∧ c3yx.Add "x" 9 = some (⟨5, 10, wId, 9, [⟨"x", 9, 9⟩]⟩, true, [("y", 4)]) := by
  refine ⟨?_, rfl, rfl⟩
  intro c k v ent hwcn hf hlen hwt
  have hf' : c.evictList.find? (fun e => decide (e.key = k)) = some ent := hf
  have hlenm : (listMoveToFront c.evictList k ⟨k, v, ent.weight⟩).length
      = c.evictList.length := by
    have hrm := length_listRemoveKey hf'
    simp only [listMoveToFront, List.length_append, List.length_cons,
      List.length_nil]
    omega
  have hce : LRU.checkEvict (⟨c.size, c.weightLimit, none, c.weightTotal,
        listMoveToFront c.evictList k ⟨k, v, ent.weight⟩⟩ : LRU K V)
      = some (⟨c.size, c.weightLimit, none, c.weightTotal,
          listMoveToFront c.evictList k ⟨k, v, ent.weight⟩⟩, 0, []) := by
    unfold LRU.checkEvict
    rw [LRU.checkEvictLoop]
    rw [if_neg ?_]
    push_neg
    refine ⟨?_, hwt⟩
    show ((listMoveToFront c.evictList k ⟨k, v, ent.weight⟩).length : Int) ≤ c.size
    rw [hlenm]
    exact hlen
  simp only [LRU.Add, hf, hwcn]
  rw [hce]
  rfl

theorem C3_amended_witness :
    cNoW.weightCalculator = none
    ∧ cNoW.findEntry "a" = some ⟨"a", 1, 0⟩
    ∧ (cNoW.evictList.length : Int) ≤ cNoW.size
    ∧ cNoW.weightTotal ≤ cNoW.weightLimit
    ∧ cNoW.Add "a" 9 = some
        (⟨3, 0, none, 0, listMoveToFront cNoW.evictList "a" ⟨"a", 9, 0⟩⟩,
          false, []) := by
  refine ⟨rfl, rfl, by decide, by decide, ?_⟩
  exact C3_amended.1 cNoW "a" 9 ⟨"a", 1, 0⟩ rfl rfl (by decide) (by decide)

/-- C6 amended: on a hit, GetOrAdd returns the previously stored value with
found = true and evicted = false, delivers nothing to the callback, leaves
the buffers and the stored contents (as a multiset of entries, hence also
the weight total) unchanged — but it does bump the hit entry to
most-recently-used, because the hit path goes through `LRU.Get` (see
C6_counterexample).  On a miss it behaves exactly as Add, with previous
reported as not-found. -/
theorem C6_amended :
    (∀ (c : Cache K V) (k : K) (v : V) (ent : Entry K V),
      c.lru.findEntry k = some ent →
      Cache.GetOrAdd c k v = some
        ({ c with lru := { c.lru with
            evictList := listMoveToFront c.lru.evictList k ent } },
          some ent.value, false, [], [])
      ∧ (listMoveToFront c.lru.evictList k ent).Perm c.lru.evictList)
    ∧ (∀ (c : Cache K V) (k : K) (v : V),
      c.lru.findEntry k = none →
      Cache.GetOrAdd c k v
        = (c.Add k v).map fun r => (r.1, none, r.2.1, r.2.2.1, r.2.2.2)) := by
  constructor
  · intro c k v ent hf
    constructor
    · simp only [Cache.GetOrAdd, LRU.Get, hf]
    · exact perm_listRemoveKey hf
  · intro c k v hf
    cases hLa : c.lru.Add k v with
    | none =>
      simp only [Cache.GetOrAdd, LRU.Get, hf, Cache.Add, hLa]
      rfl
    | some r =>
      obtain ⟨l', ev, ps⟩ := r
      simp only [Cache.GetOrAdd, LRU.Get, hf, Cache.Add, hLa]
      rfl

theorem C6_amended_witness :
    wAB.lru.findEntry "a" = some ⟨"a", 1, 0⟩
    ∧ Cache.GetOrAdd wAB "a" 9 = some
        ({ wAB with lru := { wAB.lru with
            evictList := listMoveToFront wAB.lru.evictList "a" ⟨"a", 1, 0⟩ } },
          some 1, false, [], [])
    ∧ (listMoveToFront wAB.lru.evictList "a" ⟨"a", 1, 0⟩).Perm
        wAB.lru.evictList := by
  obtain ⟨h1, h2⟩ := C6_amended.1 wAB "a" 9 ⟨"a", 1, 0⟩ (by rfl)
  exact ⟨rfl, h1, h2⟩

/-- C7: the wrapper's two buffer-drain forms are observably equivalent —
the copy-then-truncate drain (`collectCopy`, the purge = false branch of
`collectEvicted`) returns exactly what the ownership-taking drain
(`collectOwn`, the purge = true branch) returns, with an empty buffer left
behind in both cases — and under every sequence of wrapper operations
(with a callback configured and an initially empty buffer), the pairs
delivered to the user callback are exactly the engine's eviction
notifications, each delivered once, in eviction order, with the buffer
empty after every call. -/
theorem C7_drain_equivalence :
    (∀ buf : List (K × V), collectCopy buf = collectOwn buf)
    ∧ (∀ (ops : List (WOp K V)) (c c' : Cache K V) (d ns : List (K × V)),
      c.hasCB = true → c.evicted = [] → runOps c ops = some (c', d, ns) →
      d = ns ∧ c'.evicted = []) :=
  ⟨collectCopy_eq_collectOwn,
    fun ops c c' d ns hcb hbuf h => runOps_delivery ops c c' d ns hcb hbuf h⟩

theorem C7_drain_equivalence_witness :
    wFresh.hasCB = true ∧ wFresh.evicted = []
    ∧ runOps wFresh ops7 = some (wFinal, [(1, 1), (2, 2)], [(1, 1), (2, 2)])
    ∧ ([(1, 1), (2, 2)] : List (Nat × Nat)) = [(1, 1), (2, 2)]
    ∧ wFinal.evicted = [] := by
  have hrun : runOps wFresh ops7
      = some (wFinal, [(1, 1), (2, 2)], [(1, 1), (2, 2)]) := rfl
  have h := (C7_drain_equivalence (K := Nat) (V := Nat)).2 ops7 wFresh wFinal
    [(1, 1), (2, 2)] [(1, 1), (2, 2)] rfl rfl hrun
  exact ⟨rfl, rfl, hrun, h.1, h.2⟩

/-- C8 amended: construction fails with the invalid-configuration error
exactly when the requested size is non-positive, and no per-call method
returns an error value (missing keys and the empty store are reported
through found flags and counts).  However, the per-call methods that run
the eviction check are total only under a nonnegative size and the
weight-accounting invariant: outside those conditions they can fail by
dereferencing a nil back() (see C8_counterexample). -/
theorem C8_amended :
    (∀ (size : Int) (wl : Nat) (wc : Option (V → Nat)),
      NewLRUWithWeightLimit (K := K) size wl wc
          = .error "must provide a positive size" ↔ size ≤ 0)
    ∧ (∀ (size : Int) (wl : Nat) (wc : Option (V → Nat)), 0 < size →
      NewLRUWithWeightLimit (K := K) size wl wc = .ok ⟨size, wl, wc, 0, []⟩)
    ∧ (∀ (c : LRU K V) (k : K) (v : V), 0 ≤ c.size → WInv c →
      (c.Add k v).isSome = true)
    ∧ (∀ (c : LRU K V) (s : Int), 0 ≤ s → WInv c →
      (c.Resize s).isSome = true)
    ∧ (∀ (c : LRU K V) (wl : Nat), 0 ≤ c.size → WInv c →
      (c.ResetWeightLimit wl).isSome = true) := by
  refine ⟨?_, ?_, ?_, ?_, ?_⟩
  · intro size wl wc
    unfold NewLRUWithWeightLimit
    by_cases hs : size ≤ 0
    · simp [hs]
    · simp [hs]
  · intro size wl wc h
    unfold NewLRUWithWeightLimit
    rw [if_neg (not_le.2 h)]
  · intro c k v hs hinv
    obtain ⟨c', ev, ps, hAdd, _⟩ := Add_spec c k v hs hinv
    rw [hAdd]
    rfl
  · intro c s hs hinv
    obtain ⟨c', n, hce, _⟩ :=
      checkEvict_spec (⟨s, c.weightLimit, c.weightCalculator, c.weightTotal,
        c.evictList⟩ : LRU K V) hs hinv
    show (LRU.checkEvict (⟨s, c.weightLimit, c.weightCalculator, c.weightTotal,
        c.evictList⟩ : LRU K V)).isSome = true
    rw [hce]
    rfl
  · intro c wl hs hinv
    obtain ⟨c', n, hce, _⟩ :=
      checkEvict_spec (⟨c.size, wl, c.weightCalculator, c.weightTotal,
        c.evictList⟩ : LRU K V) hs hinv
    show (LRU.checkEvict (⟨c.size, wl, c.weightCalculator, c.weightTotal,
        c.evictList⟩ : LRU K V)).isSome = true
    rw [hce]
    rfl

theorem C8_amended_witness :
    ((0 : Int) ≤ 0 ∧ NewLRUWithWeightLimit (K := String) (V := Nat) 0 5 none
        = .error "must provide a positive size")
    ∧ ((0 : Int) < 1 ∧ NewLRUWithWeightLimit (K := String) (V := Nat) 1 0 none
        = .ok ⟨1, 0, none, 0, []⟩)
    ∧ ((0 : Int) ≤ cS1.size ∧ WInv cS1 ∧ (cS1.Add "a" 1).isSome = true)
    ∧ ((0 : Int) ≤ 2 ∧ (cS1.Resize 2).isSome = true)
    ∧ ((cS1.ResetWeightLimit 7).isSome = true) := by
  refine ⟨⟨le_refl 0, ?_⟩, ⟨by decide, ?_⟩, ⟨by decide, by decide, ?_⟩,
    ⟨by decide, ?_⟩, ?_⟩
  · exact (C8_amended.1 0 5 none).2 (le_refl 0)
  · exact C8_amended.2.1 1 0 none (by decide)
  · exact C8_amended.2.2.1 cS1 "a" 1 (by decide) (by decide)
  · exact C8_amended.2.2.2.1 cS1 2 (by decide) (by decide)
  · exact C8_amended.2.2.2.2 cS1 7 (by decide) (by decide)

end GolangLRU
